import Mathlib

/-!
# Verification of the valorizatione letter generator

Shallow embedding of `src/streamlit_app.py` (the classification-aggregation
engine, the letter composer's arithmetic, and the salutation helpers), with
theorems settling the frozen claims about the specification.

Monetary amounts are embedded as exact rationals (`ℚ`); a ledger cell whose
value does not coerce to a number is embedded as `Option.none` (mirroring
`pd.to_numeric(..., errors := coerce)` producing NaN followed by `dropna`).
-/

namespace Valorizatione

/-- One rule of the hard-coded registry: canonical label, destination table,
display position.  Mirrors the per-key dicts of `ITEM_CONFIG`
(`streamlit_app.py` lines 28-175). -/
structure Rule where
  label : String
  table : String
  pos : Nat
deriving DecidableEq, Repr

/-- The hard-coded classification registry `ITEM_CONFIG`
(`streamlit_app.py` lines 28-175), in source order. -/
def ITEM_CONFIG : List (String × Rule) := [
  ("Acquisition cost deduction from regular premium",
    ⟨"Costi di emissione e gestione", "T1", 1⟩),
  ("Contract fee deduction from regular premium",
    ⟨"Costi di emissione e gestione", "T1", 1⟩),
  ("Acquisition cost deduction from single premium",
    ⟨"Costi di emissione e gestione", "T1", 1⟩),
  ("Contract fee deduction from single premium",
    ⟨"Costi di emissione e gestione", "T1", 1⟩),
  ("Administrative deduction",
    ⟨"Costi di caricamento", "T1", 2⟩),
  ("Investment deduction",
    ⟨"Costi di investimento", "T1", 3⟩),
  ("Investment deduction from Regular Premium Balance",
    ⟨"Costi di investimento", "T1", 3⟩),
  ("Investment deduction from Single PremiumBalance",
    ⟨"Costi di investimento", "T1", 3⟩),
  ("Investment return from insurance funds",
    ⟨"Capitalizzazione", "T1", 4⟩),
  ("Investment return from insurance funds of Regular premium",
    ⟨"Capitalizzazione", "T1", 4⟩),
  ("Investment return from insurance funds of Single premium",
    ⟨"Capitalizzazione", "T1", 4⟩),
  ("Paid Premium",
    ⟨"Pagamenti dei Premi identificati", "T1", 5⟩),
  ("Paid Single Premium",
    ⟨"Pagamenti dei Premi identificati", "T1", 5⟩),
  ("Returned Premium",
    ⟨"Pagamenti dei Premi identificati", "T1", 5⟩),
  ("Risk deduction - Death",
    ⟨"Trattenuta copertura rischio morte", "T1", 6⟩),
  ("Risk deduction - accident insurance deduction",
    ⟨"Trattenuta copertura rischio infortunio", "T1", 7⟩),
  ("Risk deduction - Illnesses and operations",
    ⟨"Trattenuta copertura rischio malattia, interventi chirurgici e assistenza", "T1", 8⟩),
  ("Risk deduction - Waiver of premium",
    ⟨"Esonero Pagamento Premi ITP", "T1", 9⟩),
  ("Partial surrender",
    ⟨"Riscatto (parziale)", "T1", 10⟩),
  ("Partial Surrender Calculated value",
    ⟨"Riscatto (parziale)", "T1", 10⟩),
  ("Stamp Duty Fee",
    ⟨"Imposta di bollo", "T1", 11⟩),
  ("Investment return of Novis Loyalty Bonus",
    ⟨"Rendimento Bonus Fedeltà NOVIS", "T2", 1⟩),
  ("Investment deduction of Novis Loyalty Bonus",
    ⟨"Costi di investimento - Bonus Fedeltà NOVIS", "T2", 1⟩),
  ("NOVIS Loyalty Bonus",
    ⟨"Bonus Fedeltà NOVIS", "T2", 2⟩),
  ("NOVIS Special Bonus",
    ⟨"NOVIS Special Bonus", "T3", 1⟩)]

/-- `LABEL_POS` (line 177): the dict comprehension
`{cfg[label]: cfg.get(pos, 999) for cfg in ITEM_CONFIG.values()}`.
In a Python dict comprehension a later entry overrides an earlier one, so a
lookup finds the binding of the last rule carrying the label; we model the
dict by association-list lookup over the reversed list. -/
def LABEL_POS : List (String × Nat) :=
  (ITEM_CONFIG.map (fun p => (p.2.label, p.2.pos))).reverse

/-- `LABEL_POS.get(x, 999)` (line 299): the sort position of a label,
defaulting to 999. -/
def labelPos (lbl : String) : Nat :=
  (LABEL_POS.lookup lbl).getD 999

/-- `POSITIVE_LABELS` (lines 179-184). -/
def POSITIVE_LABELS : List String := [
  "Pagamenti dei Premi identificati",
  "Rendimento Bonus Fedeltà NOVIS",
  "Bonus Fedeltà NOVIS",
  "NOVIS Special Bonus"]

/-- The keys of `TABLE_CONFIG` (lines 186-191), in declaration order. -/
def tableIds : List String := ["T1", "T2", "T3"]

/-- A ledger row as it reaches `aggregate_tables`: the raw `Item name`
string and the result of coercing `Item value` to a number (`none` models a
value on which `pd.to_numeric(..., errors := coerce)` yields NaN). -/
structure LedgerRow where
  name : String
  value : Option ℚ
deriving DecidableEq, Repr

/-- `ITEM_CONFIG.get(x, {}).get("label", x)` (line 279). -/
def resolveLabel (name : String) : String :=
  ((ITEM_CONFIG.lookup name).map Rule.label).getD name

/-- `ITEM_CONFIG.get(x, {}).get("table", "T1")` (line 280). -/
def resolveTable (name : String) : String :=
  ((ITEM_CONFIG.lookup name).map Rule.table).getD "T1"

/-- The sign rule of lines 283-288: keep the ledger sign when the resolved
label is in `POSITIVE_LABELS` or equals `Capitalizzazione`. -/
def keepSign (lbl : String) : Bool :=
  POSITIVE_LABELS.contains lbl || lbl == "Capitalizzazione"

/-- The `Signed` column (lines 283-288) for one row. -/
def signedValue (name : String) (v : ℚ) : ℚ :=
  if keepSign (resolveLabel name) then v else -v

/-- A normalized entry: destination table, canonical label and signed
amount of one surviving ledger row (the `Table`, `Label` and `Signed`
columns of lines 279-288). -/
structure Entry where
  table : String
  label : String
  amount : ℚ
deriving DecidableEq, Repr

/-- Rows 277-288 of `aggregate_tables`: drop rows whose value did not
coerce (`dropna`), resolve the category and apply the sign rule. -/
def normalizeRows (rows : List LedgerRow) : List Entry :=
  rows.filterMap (fun r =>
    r.value.map (fun v => ⟨resolveTable r.name, resolveLabel r.name, signedValue r.name v⟩))

/-- The `(Table, Label)` grouping key of line 292. -/
def entryKey (e : Entry) : String × String := (e.table, e.label)

/-- The distinct `(Table, Label)` groups produced by
`groupby(["Table", "Label"])` (line 292). -/
def groupKeys (es : List Entry) : List (String × String) :=
  (es.map entryKey).dedup

/-- The summed `Signed` amount of one `(Table, Label)` group (line 292). -/
def groupSum (es : List Entry) (k : String × String) : ℚ :=
  ((es.filter (fun e => entryKey e == k)).map Entry.amount).sum

/-- The sort order of line 300: ascending `sort_key` (the label position,
default 999), then ascending label (code-point lexicographic, as in
Python). -/
def rowLE (a b : String × ℚ) : Prop :=
  labelPos a.1 < labelPos b.1 ∨ (labelPos a.1 = labelPos b.1 ∧ a.1 ≤ b.1)

instance : DecidableRel rowLE := fun a b => by
  unfold rowLE; infer_instance

instance : IsTotal (String × ℚ) rowLE := by
  constructor
  intro a b
  unfold rowLE
  rcases Nat.lt_trichotomy (labelPos a.1) (labelPos b.1) with h | h | h
  · exact Or.inl (Or.inl h)
  · rcases le_total a.1 b.1 with h' | h'
    · exact Or.inl (Or.inr ⟨h, h'⟩)
    · exact Or.inr (Or.inr ⟨h.symm, h'⟩)
  · exact Or.inr (Or.inl h)

instance : IsTrans (String × ℚ) rowLE := by
  constructor
  intro a b c hab hbc
  unfold rowLE at *
  rcases hab with h | ⟨h, h'⟩ <;> rcases hbc with g | ⟨g, g'⟩
  · exact Or.inl (h.trans g)
  · exact Or.inl (g ▸ h)
  · exact Or.inl (h ▸ g)
  · exact Or.inr ⟨h.trans g, h'.trans g'⟩

/-- The `(Label, Amount)` groups of table `t` before the zero filter, one
per distinct key (lines 291-294 restricted to one table). -/
def rawRows (es : List Entry) (t : String) : List (String × ℚ) :=
  ((groupKeys es).filter (fun k => k.1 == t)).map (fun k => (k.2, groupSum es k))

/-- The displayed rows of table `t`: zero-net groups removed (line 295) and
the rest sorted by `(sort_key, Label)` (line 300).  The `(sort_key, Label)`
keys of a table's groups are pairwise distinct, so every comparison sort
produces the same list as `pandas.sort_values`; we use insertion sort,
which the kernel can evaluate. -/
def tableRows (es : List Entry) (t : String) : List (String × ℚ) :=
  ((rawRows es t).filter (fun r => r.2 != 0)).insertionSort rowLE

/-- The tables dict built from a list of normalized entries: one entry per
table that still owns at least one surviving group (lines 297-302; the
`groupby("Table")` of line 298 only yields non-empty groups, and every
`Table` value is a `TABLE_CONFIG` key, so the dict is determined by
`tableRows` on `T1`, `T2`, `T3`). -/
def aggregateEntries (es : List Entry) : List (String × List (String × ℚ)) :=
  (tableIds.filter (fun t => !(tableRows es t).isEmpty)).map
    (fun t => (t, tableRows es t))

/-- `aggregate_tables` (lines 276-302) on the already-coerced rows. -/
def aggregate_tables (rows : List LedgerRow) : List (String × List (String × ℚ)) :=
  aggregateEntries (normalizeRows rows)

/-- `df_tbl["Amount"].sum()` (line 451): the subtotal of one table. -/
def subtotal (tbl : List (String × ℚ)) : ℚ :=
  (tbl.map Prod.snd).sum

/-- The grand total accumulated by `build_doc` (lines 417-461): iterate the
`TABLE_CONFIG` keys present in the tables dict and add every subtotal
(line 461 adds the subtotal unconditionally, whether or not the table shows
a total row). -/
def grandTotal (tables : List (String × List (String × ℚ))) : ℚ :=
  ((tableIds.filter (fun t => (tables.lookup t).isSome)).map
    (fun t => subtotal ((tables.lookup t).getD []))).sum

/-- Claim C3's re-expression of an aggregation result as ledger rows: one
row per `AggregatedRow`, carrying the canonical label as the category
string and the summed amount as the (parseable) value. -/
def reexpress (tables : List (String × List (String × ℚ))) : List LedgerRow :=
  tables.flatMap (fun p => p.2.map (fun r => ⟨r.1, some r.2⟩))

/-- The rows of an aggregation result read back as entries, each keeping
its table: the normalized form `reexpress` produces when every label is a
fixed point of resolution and the sign rule. -/
def entriesOf (tbls : List (String × List (String × ℚ))) : List Entry :=
  tbls.flatMap (fun p => p.2.map (fun r => ⟨p.1, r.1, r.2⟩))

/-- The spec's Preserve allow-list: the premium-payment label, the two
loyalty-bonus return labels, the special-bonus label and the
capitalization label. -/
def preserveLabels : List String := [
  "Pagamenti dei Premi identificati",
  "Rendimento Bonus Fedeltà NOVIS",
  "Bonus Fedeltà NOVIS",
  "NOVIS Special Bonus",
  "Capitalizzazione"]

/-- A `(table, label)` pair on which a second aggregation run is the
identity: the label resolves to itself, is routed to the same table, and
keeps its sign.  (Only such rows survive re-aggregation unchanged.) -/
def fixedLabel (t lbl : String) : Prop :=
  resolveTable lbl = t ∧ resolveLabel lbl = lbl ∧ keepSign lbl = true

instance (t lbl : String) : Decidable (fixedLabel t lbl) := by
  unfold fixedLabel; infer_instance

/-! ## The salutation helpers of the letter composer -/

/-- The apostrophe character, written by code point. -/
def apos : Char := '\x27'

/-- The particle set of `last_name` (lines 242-244): lower-case and
capitalized nobiliary/locative particles, including the elided form. -/
def PARTICLES : List String := [
  "di", "de", "del", "della", String.mk ['d', apos], "da", "van", "von", "la", "le",
  "Di", "De", "Del", "Della", String.mk ['D', apos], "Da", "Van", "Von", "La", "Le"]

/-- The nine particles named by the claim (claim C9's list). -/
def claimParticles : List String :=
  ["di", "de", "del", "della", "da", "van", "von", "la", "le"]

/-- The claim's particle list amended with the elided form that the code
also recognizes. -/
def amendedParticles : List String :=
  claimParticles ++ [String.mk ['d', apos]]

/-- Helper for `tokens`: walk the characters, accumulating the current
token (in reverse) and emitting it at each whitespace run or at the end. -/
def tokensAux : List Char → List Char → List String
  | [], acc => if acc = [] then [] else [⟨acc.reverse⟩]
  | c :: cs, acc =>
    if c.isWhitespace then
      if acc = [] then tokensAux cs [] else ⟨acc.reverse⟩ :: tokensAux cs []
    else tokensAux cs (c :: acc)

/-- `name.split()` (line 241): Python splits on whitespace runs and
discards empty pieces; embedded directly on the character list. -/
def tokens (name : String) : List String :=
  tokensAux name.data []

/-- Python's `.lower()` on an (ASCII) string: lower-case every character.
`String.toLower` has exactly these characters (`String.map_eq`); we use
the character-list form, which the kernel can evaluate. -/
def lowerStr (s : String) : String :=
  ⟨s.data.map Char.toLower⟩

/-- `last_name` (lines 239-246).  `none` models the `IndexError` that
`tokens[-1]` raises when the token list is empty; otherwise the function
inspects `tokens[-2]` (lower-cased) and either keeps the particle together
with the final token or returns the final token. -/
def last_name (name : String) : Option String :=
  match (tokens name).reverse with
  | [] => none
  | [t] => some t
  | t :: p :: _ => if lowerStr p ∈ PARTICLES then some (p ++ " " ++ t) else some t

/-- `SALUTATION_GREET` (lines 214-218). -/
def SALUTATION_GREET : List (String × String) := [
  ("male", "Egregio Signor"),
  ("female", "Gentilissima Signora"),
  ("company", "Spettabile")]

/-- `make_intro` (lines 248-264): the whole-name greeting for a company,
otherwise the surname via `last_name`; `none` propagates a `last_name`
failure (and an unknown recipient key, which the front end never
produces). -/
def make_intro (recipient_type client_name calc_date : String) : Option String :=
  match SALUTATION_GREET.lookup recipient_type,
      (if recipient_type = "company" then some client_name else last_name client_name) with
  | some greet, some greet_name =>
      some (greet ++ " " ++ greet_name ++ ",\n"
        ++ "siamo con la presente a trasmetterLe di seguito la tabella riportante il "
        ++ "dettaglio dei costi applicati ai fini di calcolo del valore della Sua "
        ++ "posizione assicurativa al " ++ calc_date ++ ".")
  | _, _ => none

/-- Outcome of one front-end submission with a complete file upload. -/
inductive GenResult where
  | letter (intro : String)
  | blocked
  | failure
deriving DecidableEq, Repr

/-- The letter-generation gate of `main` (lines 578-591): the letter is
built only when `all([name, addr, cf, contract])` holds (Python string
truthiness is non-emptiness); `build_doc` then calls `make_intro`
(line 412), whose `last_name` failure aborts generation with an uncaught
exception (`failure`). -/
def run_letter (name addr cf contract recipient_type calc_date : String) : GenResult :=
  if name ≠ "" ∧ addr ≠ "" ∧ cf ≠ "" ∧ contract ≠ "" then
    match make_intro recipient_type name calc_date with
    | some intro => .letter intro
    | none => .failure
  else .blocked

/-- The token `D` followed by an apostrophe, used as a second-to-last
name token. -/
def dAposToken : String := String.mk ['D', apos]

/-- A client name whose second-to-last token is the elided particle. -/
def dAposName : String := "Gianni " ++ dAposToken ++ " Alessandro"

/-! ## Effects and input mutation of the two pipeline stages -/

/-- An observable effect of `build_doc` beyond returning its value. -/
inductive BuildEffect where
  | fileRead (path : String)
deriving DecidableEq, Repr

/-- The I/O actions `build_doc` performs (lines 375-489): line 386 opens
the letterhead template from the working directory; every other operation
of the function is in-memory document construction on the fresh
`Document` value. -/
def build_doc_effects (client_name client_addr cf contract calc_date : String)
    (tables : List (String × List (String × ℚ))) : List BuildEffect :=
  [.fileRead "Novis_hl_papier_IT_motyl_12072023_prev.docx"]

/-- A raw `Item value` cell as held by the caller's dataframe: either
still as loaded (`raw`, with the number its coercion would yield, `none`
when coercion fails) or already coerced to a numeric cell (`num`, `none`
modelling NaN). -/
inductive Cell where
  | raw (parsed : Option ℚ)
  | num (v : Option ℚ)
deriving DecidableEq, Repr

/-- `pd.to_numeric(..., errors := coerce)` on one cell. -/
def to_numeric : Cell → Option ℚ
  | .raw p => p
  | .num v => v

/-- A row of the caller's dataframe before aggregation. -/
structure RawRow where
  name : String
  value : Cell
deriving DecidableEq, Repr

/-- The in-place update of line 277 on one row. -/
def coerceRow (r : RawRow) : RawRow :=
  { r with value := .num (to_numeric r.value) }

/-- `aggregate_tables` with the caller-visible state: the returned tables
together with the caller's dataframe after the call.  Line 277
(`df[Item value] = pd.to_numeric(df[Item value], errors := coerce)`)
writes the coerced column back into the caller's dataframe in place; the
later `dropna` and column assignments (lines 278-288) operate on fresh
copies. -/
def aggregate_tables_state (df : List RawRow) :
    (List (String × List (String × ℚ))) × List RawRow :=
  (aggregate_tables (df.map (fun r => ⟨r.name, to_numeric r.value⟩)),
    df.map coerceRow)

/-! ## Generic association-list and summation lemmas -/

theorem lookup_cons_eq {β : Type} (a k : String) (b : β) (es : List (String × β)) :
    ((k, b) :: es).lookup a = if a = k then some b else es.lookup a := by
  by_cases h : a = k
  · simp [List.lookup, h]
  · have hb : (a == k) = false := beq_eq_false_iff_ne.mpr h
    simp [List.lookup, hb, h]

theorem sum_map_ite_of_not_mem {κ : Type} [DecidableEq κ] {l : List κ} {k : κ} (c : ℚ)
    (h : k ∉ l) : (l.map (fun x => if k = x then c else 0)).sum = 0 := by
  induction l with
  | nil => simp
  | cons a l ih =>
    have hka : k ≠ a := fun hk => h (hk ▸ List.mem_cons_self a l)
    have hkl : k ∉ l := fun hk => h (List.mem_cons_of_mem a hk)
    simp [hka, ih hkl]

theorem sum_map_ite_of_mem {κ : Type} [DecidableEq κ] {l : List κ} {k : κ} (c : ℚ)
    (hnd : l.Nodup) (h : k ∈ l) : (l.map (fun x => if k = x then c else 0)).sum = c := by
  induction l with
  | nil => simp at h
  | cons a l ih =>
    rcases List.mem_cons.mp h with rfl | hmem
    · have : k ∉ l := (List.nodup_cons.mp hnd).1
      simp [sum_map_ite_of_not_mem c this]
    · have hka : k ≠ a := by
        rintro rfl
        exact (List.nodup_cons.mp hnd).1 hmem
      simp only [List.map_cons, List.sum_cons, if_neg hka]
      rw [ih (List.nodup_cons.mp hnd).2 hmem]
      simp

/-! ## Structure of the aggregation -/

theorem groupSum_cons (e : Entry) (es : List Entry) (k : String × String) :
    groupSum (e :: es) k = (if entryKey e = k then e.amount else 0) + groupSum es k := by
  by_cases h : entryKey e = k
  · have hb : (entryKey e == k) = true := beq_iff_eq.mpr h
    simp [groupSum, List.filter_cons, hb, h]
  · have hb : (entryKey e == k) = false := beq_eq_false_iff_ne.mpr h
    simp [groupSum, List.filter_cons, hb, h]

theorem groupSum_eq_zero_of_not_mem {es : List Entry} {k : String × String}
    (h : k ∉ es.map entryKey) : groupSum es k = 0 := by
  have : es.filter (fun e => entryKey e == k) = [] := by
    apply List.filter_eq_nil_iff.mpr
    intro e he hb
    exact h (List.mem_map.mpr ⟨e, he, beq_iff_eq.mp hb⟩)
  simp [groupSum, this]

/-- The fiberwise-sum identity: summing every group's sum recovers the sum
of all entry amounts. -/
theorem sum_groupSums (es : List Entry) :
    ((groupKeys es).map (groupSum es)).sum = (es.map Entry.amount).sum := by
  induction es with
  | nil => simp [groupKeys, groupSum]
  | cons e es ih =>
    have hmaps : (e :: es).map entryKey = entryKey e :: es.map entryKey := rfl
    by_cases hmem : entryKey e ∈ es.map entryKey
    · have hkeys : groupKeys (e :: es) = groupKeys es := by
        simp only [groupKeys, hmaps]
        exact List.dedup_cons_of_mem hmem
      have hsum : ∀ ks : List (String × String),
          (ks.map (groupSum (e :: es))).sum
            = (ks.map (fun k => if entryKey e = k then e.amount else 0)).sum
              + (ks.map (groupSum es)).sum := by
        intro ks
        induction ks with
        | nil => simp
        | cons k ks ihk =>
          simp only [List.map_cons, List.sum_cons, groupSum_cons, ihk]
          ring
      rw [hkeys, hsum]
      have hke : entryKey e ∈ groupKeys es := by
        simpa [groupKeys, List.mem_dedup] using hmem
      have hnd : (groupKeys es).Nodup := by
        unfold groupKeys
        exact List.nodup_dedup _
      rw [sum_map_ite_of_mem e.amount hnd hke, ih]
      simp
    · have hkeys : groupKeys (e :: es) = entryKey e :: groupKeys es := by
        simp only [groupKeys, hmaps]
        exact List.dedup_cons_of_not_mem hmem
      rw [hkeys]
      simp only [List.map_cons, List.sum_cons]
      have h1 : groupSum (e :: es) (entryKey e) = e.amount := by
        rw [groupSum_cons, if_pos rfl, groupSum_eq_zero_of_not_mem hmem]
        simp
      have h2 : (groupKeys es).map (groupSum (e :: es)) = (groupKeys es).map (groupSum es) := by
        apply List.map_congr_left
        intro k hk
        have hne : entryKey e ≠ k := by
          rintro rfl
          exact hmem (by simpa [groupKeys, List.mem_dedup] using hk)
        rw [groupSum_cons, if_neg hne]
        simp
      rw [h1, h2, ih]

/-- Splitting a sum of group sums across the distinct table identifiers:
every key whose first component lies in `ts` is counted exactly once. -/
theorem sum_split_by_table (f : String × String → ℚ) :
    ∀ (ts : List String) (l : List (String × String)), ts.Nodup →
      (∀ k ∈ l, k.1 ∈ ts) →
      (ts.map (fun t => ((l.filter (fun k => k.1 == t)).map f).sum)).sum = (l.map f).sum := by
  intro ts
  induction ts with
  | nil =>
    intro l _ hcov
    cases l with
    | nil => simp
    | cons k l => exact absurd (hcov k (List.mem_cons_self k l)) (by simp)
  | cons t ts ih =>
    intro l hnd hcov
    have hsplit : (l.map f).sum
        = ((l.filter (fun k => k.1 == t)).map f).sum
          + ((l.filter (fun k => !(k.1 == t))).map f).sum := by
      induction l with
      | nil => simp
      | cons k l ihl =>
        have hcov' : ∀ k' ∈ l, k'.1 ∈ t :: ts := fun k' h => hcov k' (List.mem_cons_of_mem k h)
        by_cases hk : k.1 = t
        · have hb : (k.1 == t) = true := beq_iff_eq.mpr hk
          simp [List.filter_cons, hb, ihl hcov']
          ring
        · have hb : (k.1 == t) = false := beq_eq_false_iff_ne.mpr hk
          simp [List.filter_cons, hb, ihl hcov']
          ring
    have hrest : (ts.map (fun t' =>
        (((l.filter (fun k => !(k.1 == t))).filter (fun k => k.1 == t')).map f).sum)).sum
        = ((l.filter (fun k => !(k.1 == t))).map f).sum := by
      apply ih _ (List.nodup_cons.mp hnd).2
      intro k hk
      have hk1 := List.mem_filter.mp hk
      rcases List.mem_cons.mp (hcov k hk1.1) with h | h
      · exact absurd (beq_iff_eq.mpr h) (by simpa using hk1.2)
      · exact h
    have hfilters : ∀ t' ∈ ts,
        (l.filter (fun k => k.1 == t')).filter (fun k => k.1 == t)
          = [] := by
      intro t' ht'
      apply List.filter_eq_nil_iff.mpr
      intro k hk hb
      have h1 := beq_iff_eq.mp (List.mem_filter.mp hk).2
      have h2 := beq_iff_eq.mp hb
      exact (List.nodup_cons.mp hnd).1 (by rw [h2.symm.trans h1]; exact ht')
    have hcomm : ∀ t' ∈ ts,
        (l.filter (fun k => !(k.1 == t))).filter (fun k => k.1 == t')
          = l.filter (fun k => k.1 == t') := by
      intro t' ht'
      rw [List.filter_comm]
      have : ∀ k ∈ l.filter (fun k => k.1 == t'), (!(k.1 == t)) = true := by
        intro k hk
        have h1 := beq_iff_eq.mp (List.mem_filter.mp hk).2
        have : k.1 ≠ t := by
          rintro rfl
          exact (List.nodup_cons.mp hnd).1 (h1 ▸ ht')
        simpa using beq_eq_false_iff_ne.mpr this
      exact List.filter_eq_self.mpr this
    simp only [List.map_cons, List.sum_cons]
    rw [hsplit]
    congr 1
    rw [← hrest]
    apply congrArg
    apply List.map_congr_left
    intro t' ht'
    rw [hcomm t' ht']

/-- Dropping the zero groups does not change a table's sum. -/
theorem sum_filter_ne_zero (l : List (String × ℚ)) :
    ((l.filter (fun r => r.2 != 0)).map Prod.snd).sum = (l.map Prod.snd).sum := by
  induction l with
  | nil => simp
  | cons r l ih =>
    by_cases h : r.2 = 0
    · simp [List.filter_cons, h, ih]
    · have hb : (r.2 != 0) = true := by simpa using h
      simp [List.filter_cons, hb, ih]

/-- Sorting does not change a table's sum. -/
theorem sum_tableRows (es : List Entry) (t : String) :
    ((tableRows es t).map Prod.snd).sum = ((rawRows es t).map Prod.snd).sum := by
  unfold tableRows
  rw [((List.perm_insertionSort rowLE _).map Prod.snd).sum_eq]
  exact sum_filter_ne_zero _

/-- Every rule of the registry sends its key to one of the three
configured tables. -/
theorem resolveTable_mem (name : String) : resolveTable name ∈ tableIds := by
  have : ∀ l : List (String × Rule), (∀ p ∈ l, p.2.table ∈ tableIds) →
      ((List.lookup name l).map Rule.table).getD "T1" ∈ tableIds := by
    intro l
    induction l with
    | nil =>
      intro _
      simp [List.lookup, tableIds]
    | cons p l ih =>
      intro hcov
      rcases p with ⟨k, r⟩
      rw [lookup_cons_eq]
      by_cases h : name = k
      · simpa [h] using hcov (k, r) (List.mem_cons_self _ _)
      · simp only [if_neg h]
        exact ih (fun q hq => hcov q (List.mem_cons_of_mem _ hq))
  exact this ITEM_CONFIG (by decide)

theorem entry_table_mem {rows : List LedgerRow} {e : Entry}
    (h : e ∈ normalizeRows rows) : e.table ∈ tableIds := by
  rcases List.mem_filterMap.mp h with ⟨r, _, hr⟩
  rcases Option.map_eq_some'.mp hr with ⟨v, _, he⟩
  rw [← he]
  exact resolveTable_mem r.name

theorem lookup_map_eq_none {β : Type} (f : String → β) (t : String) :
    ∀ us : List String, (∀ u ∈ us, t ≠ u) →
      (us.map (fun s => (s, f s))).lookup t = none := by
  intro us
  induction us with
  | nil => simp
  | cons u us ih =>
    intro hne
    rw [List.map_cons, lookup_cons_eq, if_neg (hne u (List.mem_cons_self u us))]
    exact ih (fun s hs => hne s (List.mem_cons_of_mem u hs))

/-- Looking a table id up in the aggregation output. -/
theorem lookup_aggregateEntries (es : List Entry) :
    ∀ (ts : List String), ts.Nodup → ∀ t ∈ ts,
      ((ts.filter (fun s => !(tableRows es s).isEmpty)).map
        (fun s => (s, tableRows es s))).lookup t
        = if (tableRows es t).isEmpty then none else some (tableRows es t) := by
  intro ts
  induction ts with
  | nil => simp
  | cons s ts ih =>
    intro hnd t ht
    rcases List.mem_cons.mp ht with rfl | hmem
    · by_cases h : (tableRows es t).isEmpty
      · rw [if_pos h]
        have hne : ∀ s' ∈ ts.filter (fun s => !(tableRows es s).isEmpty), t ≠ s' := by
          intro s' hs' heq
          subst heq
          have h2 := (List.mem_filter.mp hs').2
          rw [h] at h2
          simp at h2
        have hfe : (t :: ts).filter (fun s => !(tableRows es s).isEmpty)
            = ts.filter (fun s => !(tableRows es s).isEmpty) := by
          simp [List.filter_cons, h]
        rw [hfe]
        exact lookup_map_eq_none _ t _ hne
      · rw [if_neg h]
        have hb : (!(tableRows es t).isEmpty) = true := by simpa using h
        have hfe : (t :: ts).filter (fun s => !(tableRows es s).isEmpty)
            = t :: ts.filter (fun s => !(tableRows es s).isEmpty) := by
          simp [List.filter_cons, hb]
        rw [hfe, List.map_cons, lookup_cons_eq, if_pos rfl]
    · have hnt : t ≠ s := by
        rintro rfl
        exact (List.nodup_cons.mp hnd).1 hmem
      by_cases hb : (!(tableRows es s).isEmpty) = true
      · have hfe : (s :: ts).filter (fun x => !(tableRows es x).isEmpty)
            = s :: ts.filter (fun x => !(tableRows es x).isEmpty) := by
          simp [List.filter_cons, hb]
        rw [hfe, List.map_cons, lookup_cons_eq, if_neg hnt]
        exact ih (List.nodup_cons.mp hnd).2 t hmem
      · have hfe : (s :: ts).filter (fun x => !(tableRows es x).isEmpty)
            = ts.filter (fun x => !(tableRows es x).isEmpty) := by
          simp only [List.filter_cons, hb]
          simp at hb
          simp [hb]
        rw [hfe]
        exact ih (List.nodup_cons.mp hnd).2 t hmem

theorem tableIds_nodup : tableIds.Nodup := by decide

/-- The central reconciliation identity: the grand total accumulated by
`build_doc` over the aggregation output equals the sum of all normalized
entry amounts. -/
theorem grandTotal_aggregateEntries (es : List Entry)
    (hcov : ∀ e ∈ es, e.table ∈ tableIds) :
    grandTotal (aggregateEntries es) = (es.map Entry.amount).sum := by
  unfold grandTotal aggregateEntries
  have hlk : ∀ t ∈ tableIds,
      ((tableIds.filter (fun s => !(tableRows es s).isEmpty)).map
        (fun s => (s, tableRows es s))).lookup t
        = if (tableRows es t).isEmpty then none else some (tableRows es t) :=
    fun t ht => lookup_aggregateEntries es tableIds tableIds_nodup t ht
  have hfilter :
      tableIds.filter (fun t =>
        (((tableIds.filter (fun s => !(tableRows es s).isEmpty)).map
          (fun s => (s, tableRows es s))).lookup t).isSome)
        = tableIds.filter (fun t => !(tableRows es t).isEmpty) := by
    apply List.filter_congr
    intro t ht
    rw [hlk t ht]
    by_cases h : (tableRows es t).isEmpty
    · simp [h]
    · simp [h]
  rw [hfilter]
  have hmap :
      (tableIds.filter (fun t => !(tableRows es t).isEmpty)).map
        (fun t => subtotal ((((tableIds.filter (fun s => !(tableRows es s).isEmpty)).map
          (fun s => (s, tableRows es s))).lookup t).getD []))
        = (tableIds.filter (fun t => !(tableRows es t).isEmpty)).map
            (fun t => subtotal (tableRows es t)) := by
    apply List.map_congr_left
    intro t ht
    have ht' := List.mem_filter.mp ht
    rw [hlk t ht'.1]
    have h : (tableRows es t).isEmpty = false := by simpa using ht'.2
    simp [h]
  rw [hmap]
  have hdrop :
      ((tableIds.filter (fun t => !(tableRows es t).isEmpty)).map
        (fun t => subtotal (tableRows es t))).sum
        = (tableIds.map (fun t => subtotal (tableRows es t))).sum := by
    induction tableIds with
    | nil => simp
    | cons t ts ih =>
      by_cases h : (tableRows es t).isEmpty
      · have hz : subtotal (tableRows es t) = 0 := by
          rw [List.isEmpty_iff.mp h]
          simp [subtotal]
        simp [List.filter_cons, h, hz, ih]
      · have hb : (!(tableRows es t).isEmpty) = true := by simpa using h
        simp [List.filter_cons, hb, ih]
  rw [hdrop]
  have hsub : ∀ t, subtotal (tableRows es t)
      = (((groupKeys es).filter (fun k => k.1 == t)).map (groupSum es)).sum := by
    intro t
    unfold subtotal
    rw [sum_tableRows]
    unfold rawRows
    rw [List.map_map]
    rfl
  have hcov' : ∀ k ∈ groupKeys es, k.1 ∈ tableIds := by
    intro k hk
    have : k ∈ es.map entryKey := by
      simpa [groupKeys, List.mem_dedup] using hk
    rcases List.mem_map.mp this with ⟨e, he, rfl⟩
    exact hcov e he
  calc (tableIds.map (fun t => subtotal (tableRows es t))).sum
      = (tableIds.map (fun t =>
          (((groupKeys es).filter (fun k => k.1 == t)).map (groupSum es)).sum)).sum := by
        apply congrArg
        apply List.map_congr_left
        intro t _
        exact hsub t
    _ = ((groupKeys es).map (groupSum es)).sum :=
        sum_split_by_table (groupSum es) tableIds (groupKeys es) tableIds_nodup hcov'
    _ = (es.map Entry.amount).sum := sum_groupSums es

theorem normalizeRows_map_amount (rows : List LedgerRow) :
    (normalizeRows rows).map Entry.amount
      = rows.filterMap (fun r => r.value.map (signedValue r.name)) := by
  unfold normalizeRows
  rw [List.map_filterMap]
  apply List.filterMap_congr
  intro r _
  rcases r.value with _ | v <;> simp

/-! ## Claim theorems -/

/-- C1: for every input row sequence, the grand total accumulated in
`build_doc` over the aggregation output equals the signed sum of all
normalized entries (equivalently, of the signed values of every ledger row
whose value parses), and each populated table's subtotal is the sum of the
amounts of its displayed rows; in particular no surviving entry is dropped
or double counted by grouping, zero-net filtering or table splitting. -/
theorem grand_total_reconciles (rows : List LedgerRow) :
    grandTotal (aggregate_tables rows) = ((normalizeRows rows).map Entry.amount).sum
    ∧ ((normalizeRows rows).map Entry.amount).sum
        = (rows.filterMap (fun r => r.value.map (signedValue r.name))).sum
    ∧ ∀ t tbl, (t, tbl) ∈ aggregate_tables rows → subtotal tbl = (tbl.map Prod.snd).sum := by
  refine ⟨?_, by rw [normalizeRows_map_amount], fun t tbl _ => rfl⟩
  unfold aggregate_tables
  exact grandTotal_aggregateEntries (normalizeRows rows) (fun e he => entry_table_mem he)

/-- Witness for C1 at the spec's own scenario: two `Administrative
deduction` rows and one `Paid Premium` row. -/
theorem grand_total_reconciles_witness :
    grandTotal (aggregate_tables
      [⟨"Administrative deduction", some 80⟩, ⟨"Administrative deduction", some 20⟩,
        ⟨"Paid Premium", some 500⟩]) = 400
    ∧ subtotal [("Costi di caricamento", -(100:ℚ)), ("Pagamenti dei Premi identificati", 500)]
        = ([("Costi di caricamento", -(100:ℚ)),
            ("Pagamenti dei Premi identificati", 500)].map Prod.snd).sum := by
  constructor
  · have h : normalizeRows
        [⟨"Administrative deduction", some 80⟩, ⟨"Administrative deduction", some 20⟩,
          ⟨"Paid Premium", some 500⟩]
        = [⟨"T1", "Costi di caricamento", -(80:ℚ)⟩, ⟨"T1", "Costi di caricamento", -(20:ℚ)⟩,
            ⟨"T1", "Pagamenti dei Premi identificati", (500:ℚ)⟩] := rfl
    rw [(grand_total_reconciles
      [⟨"Administrative deduction", some 80⟩, ⟨"Administrative deduction", some 20⟩,
        ⟨"Paid Premium", some 500⟩]).1, h]
    norm_num
  · exact (grand_total_reconciles
      [⟨"Administrative deduction", some 80⟩, ⟨"Administrative deduction", some 20⟩,
        ⟨"Paid Premium", some 500⟩]).2.2 "T1"
      [("Costi di caricamento", -(100:ℚ)), ("Pagamenti dei Premi identificati", 500)]
      (by
        have h : normalizeRows
            [⟨"Administrative deduction", some 80⟩, ⟨"Administrative deduction", some 20⟩,
              ⟨"Paid Premium", some 500⟩]
            = [⟨"T1", "Costi di caricamento", -(80:ℚ)⟩, ⟨"T1", "Costi di caricamento", -(20:ℚ)⟩,
                ⟨"T1", "Pagamenti dei Premi identificati", (500:ℚ)⟩] := rfl
        rw [aggregate_tables, h]
        norm_num +decide [aggregateEntries, tableRows, rawRows, groupKeys, groupSum,
          entryKey, tableIds, List.dedup, List.pwFilter, List.insertionSort, List.orderedInsert])

theorem keepSign_iff (lbl : String) : keepSign lbl = true ↔ lbl ∈ preserveLabels := by
  simp [keepSign, preserveLabels, POSITIVE_LABELS, List.contains, List.elem_iff, or_assoc]

/-- C2: a row whose resolved category is on the Preserve allow-list keeps
the ledger's sign and every other row is sign-inverted; in particular a
cost row of 120.00 normalizes to -120.00 and a `Paid Premium` row of
500.00 to +500.00. -/
theorem sign_policy (name : String) (v : ℚ) :
    signedValue name v = (if resolveLabel name ∈ preserveLabels then v else -v)
    ∧ signedValue "Administrative deduction" 120 = -120
    ∧ signedValue "Paid Premium" 500 = 500 := by
  refine ⟨?_, rfl, rfl⟩
  unfold signedValue
  by_cases h : resolveLabel name ∈ preserveLabels
  · rw [if_pos (keepSign_iff _ |>.mpr h), if_pos h]
  · rw [if_neg (fun hb => h (keepSign_iff _ |>.mp hb)), if_neg h]

/-- C4 counterexample: the raw category `Capitalizzazione` is absent from
the registry, so its row lands in `T1` under the verbatim label, but its
amount keeps the ledger sign (+10,00) instead of being sign-inverted. -/
theorem unmapped_passthrough_counterexample :
    ITEM_CONFIG.lookup "Capitalizzazione" = none
    ∧ aggregate_tables [⟨"Capitalizzazione", some 10⟩] = [("T1", [("Capitalizzazione", 10)])]
    ∧ ¬ ((10 : ℚ) = -(10 : ℚ)) := by
  refine ⟨by decide, ?_, by norm_num⟩
  have h : normalizeRows [⟨"Capitalizzazione", some 10⟩]
      = [⟨"T1", "Capitalizzazione", (10:ℚ)⟩] := rfl
  rw [aggregate_tables, h]
  norm_num +decide [aggregateEntries, tableRows, rawRows, groupKeys, groupSum,
    entryKey, tableIds, List.dedup, List.pwFilter, List.insertionSort, List.orderedInsert]

/-- C4 amended: a raw category absent from the registry is routed to `T1`
under its verbatim string as label, and its amount is the sign-inverted
ledger value unless the raw string itself is one of the preserve labels,
in which case the ledger sign is kept. -/
theorem unmapped_passthrough (name : String) (v : ℚ)
    (h : ITEM_CONFIG.lookup name = none) :
    resolveTable name = "T1" ∧ resolveLabel name = name
    ∧ signedValue name v = (if name ∈ preserveLabels then v else -v) := by
  have hl : resolveLabel name = name := by simp [resolveLabel, h]
  refine ⟨by simp [resolveTable, h], hl, ?_⟩
  rw [(sign_policy name v).1, hl]

/-- Witness for C4 amended at the unmapped category `Unknown cost`. -/
theorem unmapped_passthrough_witness :
    resolveTable "Unknown cost" = "T1" ∧ resolveLabel "Unknown cost" = "Unknown cost"
    ∧ signedValue "Unknown cost" 7 = -7 := by
  have h := unmapped_passthrough "Unknown cost" 7 (by decide)
  simpa [preserveLabels] using h

/-! ## Membership structure of the aggregation output -/

theorem mem_rawRows {es : List Entry} {t lbl : String} {a : ℚ} :
    (lbl, a) ∈ rawRows es t
      ↔ ((t, lbl) ∈ es.map entryKey ∧ a = groupSum es (t, lbl)) := by
  unfold rawRows
  constructor
  · intro h
    rcases List.mem_map.mp h with ⟨k, hk, hke⟩
    obtain ⟨hkmem, hkt⟩ := List.mem_filter.mp hk
    rcases k with ⟨kt, kl⟩
    obtain ⟨h1, h2⟩ := Prod.mk.injEq .. ▸ hke
    have ht : kt = t := beq_iff_eq.mp hkt
    subst ht h1
    refine ⟨?_, h2.symm⟩
    simpa [groupKeys, List.mem_dedup] using hkmem
  · rintro ⟨hmem, rfl⟩
    apply List.mem_map.mpr
    refine ⟨(t, lbl), List.mem_filter.mpr ⟨?_, by simp⟩, rfl⟩
    simpa [groupKeys, List.mem_dedup] using hmem

theorem mem_tableRows {es : List Entry} {t : String} {r : String × ℚ} :
    r ∈ tableRows es t ↔ (r ∈ rawRows es t ∧ r.2 ≠ 0) := by
  unfold tableRows
  rw [List.mem_insertionSort, List.mem_filter]
  simp [bne_iff_ne]

theorem mem_aggregateEntries {es : List Entry} {t : String}
    {tbl : List (String × ℚ)} :
    (t, tbl) ∈ aggregateEntries es
      ↔ (t ∈ tableIds ∧ tableRows es t ≠ [] ∧ tbl = tableRows es t) := by
  unfold aggregateEntries
  constructor
  · intro h
    rcases List.mem_map.mp h with ⟨s, hs, hse⟩
    obtain ⟨h1, h2⟩ := Prod.mk.injEq .. ▸ hse
    subst h1
    obtain ⟨hmem, hne⟩ := List.mem_filter.mp hs
    refine ⟨hmem, ?_, h2.symm⟩
    intro hnil
    rw [hnil] at hne
    simp at hne
  · rintro ⟨hmem, hne, rfl⟩
    apply List.mem_map.mpr
    refine ⟨t, List.mem_filter.mpr ⟨hmem, ?_⟩, rfl⟩
    simpa [List.isEmpty_iff] using hne

theorem normalizeRows_length (rows : List LedgerRow) :
    (normalizeRows rows).length = (rows.filter (fun r => r.value.isSome)).length := by
  induction rows with
  | nil => rfl
  | cons r rows ih =>
    rcases hv : r.value with _ | v
    · simp [normalizeRows, List.filterMap_cons, List.filter_cons, hv] at ih ⊢
      exact ih
    · simp [normalizeRows, List.filterMap_cons, List.filter_cons, hv] at ih ⊢
      exact ih

/-- C5: zero-net suppression happens after grouping: no row is dropped for
being zero during normalization (one normalized entry per parseable row),
and a `(table, label)` group produces an output row exactly when the group
exists and its summed amount is nonzero, the row then carrying that sum;
in particular +50.00 and -50.00 in the same category produce no output. -/
theorem zero_net_suppression (rows : List LedgerRow) :
    ((normalizeRows rows).length = (rows.filter (fun r => r.value.isSome)).length)
    ∧ (∀ t lbl a, (∃ tbl, (t, tbl) ∈ aggregate_tables rows ∧ (lbl, a) ∈ tbl)
        ↔ ((t, lbl) ∈ (normalizeRows rows).map entryKey
            ∧ a = groupSum (normalizeRows rows) (t, lbl) ∧ a ≠ 0))
    ∧ aggregate_tables [⟨"Administrative deduction", some 50⟩,
        ⟨"Administrative deduction", some (-50)⟩] = [] := by
  refine ⟨normalizeRows_length rows, ?_, ?_⟩
  · intro t lbl a
    constructor
    · rintro ⟨tbl, htbl, hr⟩
      obtain ⟨-, -, rfl⟩ := mem_aggregateEntries.mp htbl
      obtain ⟨hraw, hne⟩ := mem_tableRows.mp hr
      obtain ⟨hkey, ha⟩ := mem_rawRows.mp hraw
      exact ⟨hkey, ha, hne⟩
    · rintro ⟨hkey, ha, hne⟩
      have hmem : (lbl, a) ∈ tableRows (normalizeRows rows) t :=
        mem_tableRows.mpr ⟨mem_rawRows.mpr ⟨hkey, ha⟩, hne⟩
      have htmem : t ∈ tableIds := by
        rcases List.mem_map.mp hkey with ⟨e, he, hk⟩
        have : e.table = t := congrArg Prod.fst hk
        exact this ▸ entry_table_mem he
      refine ⟨tableRows (normalizeRows rows) t,
        mem_aggregateEntries.mpr ⟨htmem, ?_, rfl⟩, hmem⟩
      exact List.ne_nil_of_mem hmem
  · have h : normalizeRows [⟨"Administrative deduction", some 50⟩,
        ⟨"Administrative deduction", some (-50)⟩]
        = [⟨"T1", "Costi di caricamento", -(50:ℚ)⟩,
            ⟨"T1", "Costi di caricamento", -(-50:ℚ)⟩] := rfl
    rw [aggregate_tables, h]
    norm_num +decide [aggregateEntries, tableRows, rawRows, groupKeys, groupSum,
      entryKey, tableIds, List.dedup, List.pwFilter, List.insertionSort, List.orderedInsert]

/-- Witness for C5: in the spec scenario the `Costi di caricamento` group
sums to -100,00, so its output row exists and carries that sum. -/
theorem zero_net_suppression_witness :
    ∃ tbl, ("T1", tbl) ∈ aggregate_tables
        [⟨"Administrative deduction", some 80⟩, ⟨"Administrative deduction", some 20⟩,
          ⟨"Paid Premium", some 500⟩]
      ∧ ("Costi di caricamento", -(100:ℚ)) ∈ tbl := by
  apply ((zero_net_suppression
    [⟨"Administrative deduction", some 80⟩, ⟨"Administrative deduction", some 20⟩,
      ⟨"Paid Premium", some 500⟩]).2.1 "T1" "Costi di caricamento" (-(100:ℚ))).mpr
  have h : normalizeRows
      [⟨"Administrative deduction", some 80⟩, ⟨"Administrative deduction", some 20⟩,
        ⟨"Paid Premium", some 500⟩]
      = [⟨"T1", "Costi di caricamento", -(80:ℚ)⟩, ⟨"T1", "Costi di caricamento", -(20:ℚ)⟩,
          ⟨"T1", "Pagamenti dei Premi identificati", (500:ℚ)⟩] := rfl
  rw [h]
  refine ⟨by decide, ?_, by norm_num⟩
  norm_num +decide [groupSum, entryKey]

/-! ## Ordering of the rows within a table -/

theorem rawRows_fst_nodup (es : List Entry) (t : String) :
    ((rawRows es t).map Prod.fst).Nodup := by
  unfold rawRows
  rw [List.map_map]
  have hnd : ((groupKeys es).filter (fun k => k.1 == t)).Nodup := by
    apply List.Nodup.filter
    unfold groupKeys
    exact List.nodup_dedup _
  apply hnd.map_on
  intro x hx y hy hxy
  have hxt : x.1 = t := beq_iff_eq.mp (List.mem_filter.mp hx).2
  have hyt : y.1 = t := beq_iff_eq.mp (List.mem_filter.mp hy).2
  have : x.2 = y.2 := hxy
  exact Prod.ext (hxt.trans hyt.symm) this

theorem tableRows_fst_nodup (es : List Entry) (t : String) :
    ((tableRows es t).map Prod.fst).Nodup := by
  unfold tableRows
  have hperm : List.Perm
      ((((rawRows es t).filter (fun r => r.2 != 0)).insertionSort rowLE).map Prod.fst)
      (((rawRows es t).filter (fun r => r.2 != 0)).map Prod.fst) :=
    (List.perm_insertionSort rowLE _).map Prod.fst
  apply hperm.nodup_iff.mpr
  apply List.Nodup.sublist ((List.filter_sublist _).map Prod.fst)
  exact rawRows_fst_nodup es t

theorem tableRows_sorted (es : List Entry) (t : String) :
    (tableRows es t).Sorted rowLE :=
  List.sorted_insertionSort rowLE _

/-- C6: within each table the displayed rows are strictly ordered by
`(rank, label)`: the rank of a label is its registry position, a label
with no registry position gets the default rank 999 (and every registry
position is below 999, so unranked labels sort last), and rows with equal
rank appear in strictly increasing lexicographic label order. -/
theorem table_ordering (rows : List LedgerRow) :
    (∀ t tbl, (t, tbl) ∈ aggregate_tables rows →
      tbl.Pairwise (fun a b => labelPos a.1 < labelPos b.1
        ∨ (labelPos a.1 = labelPos b.1 ∧ a.1 < b.1)))
    ∧ (∀ lbl, LABEL_POS.lookup lbl = none → labelPos lbl = 999)
    ∧ (∀ p ∈ LABEL_POS, p.2 < 999) := by
  refine ⟨?_, fun lbl h => by simp [labelPos, h], by decide⟩
  intro t tbl htbl
  obtain ⟨-, -, rfl⟩ := mem_aggregateEntries.mp htbl
  have hsorted := tableRows_sorted (normalizeRows rows) t
  have hnodup := tableRows_fst_nodup (normalizeRows rows) t
  have hne : (tableRows (normalizeRows rows) t).Pairwise (fun a b => a.1 ≠ b.1) :=
    (List.pairwise_map).mp hnodup
  have hand := hsorted.and hne
  apply hand.imp
  rintro a b ⟨hle, hab⟩
  rcases hle with h | ⟨h, h'⟩
  · exact Or.inl h
  · exact Or.inr ⟨h, lt_of_le_of_ne h' hab⟩

/-- Witness for C6: in a table holding `Costi di caricamento` (rank 2) and
`Pagamenti dei Premi identificati` (rank 5), the rank-2 row precedes. -/
theorem table_ordering_witness :
    [("Costi di caricamento", -(100:ℚ)), ("Pagamenti dei Premi identificati", (500:ℚ))].Pairwise
      (fun a b => labelPos a.1 < labelPos b.1
        ∨ (labelPos a.1 = labelPos b.1 ∧ a.1 < b.1)) := by
  apply (table_ordering
    [⟨"Administrative deduction", some 80⟩, ⟨"Administrative deduction", some 20⟩,
      ⟨"Paid Premium", some 500⟩]).1 "T1"
  have h : normalizeRows
      [⟨"Administrative deduction", some 80⟩, ⟨"Administrative deduction", some 20⟩,
        ⟨"Paid Premium", some 500⟩]
      = [⟨"T1", "Costi di caricamento", -(80:ℚ)⟩, ⟨"T1", "Costi di caricamento", -(20:ℚ)⟩,
          ⟨"T1", "Pagamenti dei Premi identificati", (500:ℚ)⟩] := rfl
  rw [aggregate_tables, h]
  norm_num +decide [aggregateEntries, tableRows, rawRows, groupKeys, groupSum,
    entryKey, tableIds, List.dedup, List.pwFilter, List.insertionSort, List.orderedInsert]

/-! ## Unparseable values -/

theorem normalizeRows_filter_isSome (rows : List LedgerRow) :
    normalizeRows (rows.filter (fun x => x.value.isSome)) = normalizeRows rows := by
  induction rows with
  | nil => rfl
  | cons r rows ih =>
    rcases hv : r.value with _ | v
    · simp [normalizeRows, List.filter_cons, List.filterMap_cons, hv] at ih ⊢
      exact ih
    · simp [normalizeRows, List.filter_cons, List.filterMap_cons, hv] at ih ⊢
      exact ih

/-- C8: a row whose value does not coerce to a number is never an error:
it is dropped before grouping and the rest of the input is processed as if
the row were absent, and the result in general only depends on the
parseable rows. -/
theorem unparseable_rows_dropped (rows₁ rows₂ : List LedgerRow) (r : LedgerRow)
    (h : r.value = none) :
    aggregate_tables (rows₁ ++ r :: rows₂) = aggregate_tables (rows₁ ++ rows₂)
    ∧ (∀ rows : List LedgerRow,
        aggregate_tables (rows.filter (fun x => x.value.isSome)) = aggregate_tables rows) := by
  constructor
  · unfold aggregate_tables
    congr 1
    unfold normalizeRows
    rw [List.filterMap_append, List.filterMap_append, List.filterMap_cons, h]
    rfl
  · intro rows
    unfold aggregate_tables
    rw [normalizeRows_filter_isSome]

/-- Witness for C8: inserting an unparseable row in front of a `Paid
Premium` row leaves the aggregation unchanged. -/
theorem unparseable_rows_dropped_witness :
    aggregate_tables [⟨"free-text annotation", none⟩, ⟨"Paid Premium", some 10⟩]
      = aggregate_tables [⟨"Paid Premium", some 10⟩] :=
  (unparseable_rows_dropped [] [⟨"Paid Premium", some 10⟩]
    ⟨"free-text annotation", none⟩ rfl).1

/-! ## Surname extraction -/

theorem lowerStr_eq_toLower (s : String) : lowerStr s = s.toLower := by
  rw [String.toLower, String.map_eq]
  rfl

theorem toNat_ofNat_valid {n : Nat} (h : n.isValidChar) : (Char.ofNat n).toNat = n := by
  simp [Char.ofNat, h, Char.ofNatAux, Char.toNat, UInt32.toNat, BitVec.toNat_ofNatLt]

/-- `Char.toLower` never produces a basic-latin capital letter. -/
theorem toLower_not_upper (c : Char) :
    ¬(65 ≤ (Char.toLower c).toNat ∧ (Char.toLower c).toNat ≤ 90) := by
  unfold Char.toLower
  simp only
  by_cases h : c.toNat ≥ 65 ∧ c.toNat ≤ 90
  · rw [if_pos h, toNat_ofNat_valid]
    · omega
    · exact Or.inl (by omega)
  · rw [if_neg h]
    omega

/-- A lower-cased string never starts with a capital letter. -/
theorem lowerStr_ne_upper_head (s : String) (c : Char) (cs : List Char)
    (h65 : 65 ≤ c.toNat) (h90 : c.toNat ≤ 90) : lowerStr s ≠ ⟨c :: cs⟩ := by
  intro h
  have hd : s.data.map Char.toLower = c :: cs := congrArg String.data h
  cases hs : s.data with
  | nil => rw [hs] at hd; exact absurd hd (by simp)
  | cons a l =>
    rw [hs, List.map_cons] at hd
    have : Char.toLower a = c := (List.cons.injEq .. ▸ hd).1
    exact toLower_not_upper a ⟨this ▸ h65, this ▸ h90⟩

/-- The capitalized half of the particle set is unreachable after
lower-casing, so membership in the code's twenty-entry set coincides with
membership in the claim's list amended with the elided particle. -/
theorem mem_PARTICLES_iff (s : String) :
    lowerStr s ∈ PARTICLES ↔ lowerStr s ∈ amendedParticles := by
  have hDi : lowerStr s ≠ "Di" := lowerStr_ne_upper_head s 'D' ['i'] (by decide) (by decide)
  have hDe : lowerStr s ≠ "De" := lowerStr_ne_upper_head s 'D' ['e'] (by decide) (by decide)
  have hDel : lowerStr s ≠ "Del" :=
    lowerStr_ne_upper_head s 'D' ['e', 'l'] (by decide) (by decide)
  have hDella : lowerStr s ≠ "Della" :=
    lowerStr_ne_upper_head s 'D' ['e', 'l', 'l', 'a'] (by decide) (by decide)
  have hDapos : lowerStr s ≠ String.mk ['D', apos] :=
    lowerStr_ne_upper_head s 'D' [apos] (by decide) (by decide)
  have hDa : lowerStr s ≠ "Da" := lowerStr_ne_upper_head s 'D' ['a'] (by decide) (by decide)
  have hVan : lowerStr s ≠ "Van" :=
    lowerStr_ne_upper_head s 'V' ['a', 'n'] (by decide) (by decide)
  have hVon : lowerStr s ≠ "Von" :=
    lowerStr_ne_upper_head s 'V' ['o', 'n'] (by decide) (by decide)
  have hLa : lowerStr s ≠ "La" := lowerStr_ne_upper_head s 'L' ['a'] (by decide) (by decide)
  have hLe : lowerStr s ≠ "Le" := lowerStr_ne_upper_head s 'L' ['e'] (by decide) (by decide)
  simp only [PARTICLES, amendedParticles, claimParticles, List.mem_cons, List.mem_append,
    List.not_mem_nil, or_false, hDi, hDe, hDel, hDella, hDapos, hDa, hVan, hVon, hLa, hLe,
    false_or]
  tauto

/-- C9 counterexample: the code's particle set also contains the elided
particle.  In the name `Gianni D⟨apos⟩ Alessandro` the second-to-last token
is not (case-insensitively) one of the claim's nine particles, so the
claim predicts the surname `Alessandro`, but the code keeps the particle
pair. -/
theorem surname_extraction_counterexample :
    lowerStr dAposToken ∉ claimParticles
    ∧ (tokens dAposName).getLast? = some "Alessandro"
    ∧ last_name dAposName = some (dAposToken ++ " Alessandro")
    ∧ dAposToken ++ " Alessandro" ≠ "Alessandro" := by
  refine ⟨by decide, by decide, by decide, by decide⟩

/-- C9 amended: the surname is the last whitespace-delimited token of the
name, except when the second-to-last token is case-insensitively one of
the particles di, de, del, della, da, van, von, la, le **or the elided
particle d followed by an apostrophe**, in which case the particle and the
following token together form the surname; in particular
`Maria Di Salvatore` yields `Di Salvatore` and `Mario Rossi` yields
`Rossi`. -/
theorem surname_extraction :
    (∀ name t p rest, (tokens name).reverse = t :: p :: rest →
      last_name name = some (if lowerStr p ∈ amendedParticles then p ++ " " ++ t else t))
    ∧ (∀ name t, (tokens name).reverse = [t] → last_name name = some t)
    ∧ last_name "Maria Di Salvatore" = some "Di Salvatore"
    ∧ last_name "Mario Rossi" = some "Rossi" := by
  refine ⟨?_, ?_, by decide, by decide⟩
  · intro name t p rest hrev
    unfold last_name
    rw [hrev]
    by_cases h : lowerStr p ∈ amendedParticles
    · have hP := (mem_PARTICLES_iff p).mpr h
      simp [hP, h]
    · have hP : lowerStr p ∉ PARTICLES := fun hm => h ((mem_PARTICLES_iff p).mp hm)
      simp [hP, h]
  · intro name t hrev
    unfold last_name
    rw [hrev]

/-- Witness for C9 at `Maria Di Salvatore`. -/
theorem surname_extraction_witness :
    last_name "Maria Di Salvatore" = some ("Di" ++ " " ++ "Salvatore") := by
  have h := surname_extraction.1 "Maria Di Salvatore" "Salvatore" "Di" ["Maria"] (by decide)
  rw [h, if_pos (by decide)]

/-- C10: `last_name` is partial at the public interface: it yields a
surname for every name with at least one whitespace-delimited token but
fails on an empty or whitespace-only name; since the front end only
checks the client name for truthiness (non-emptiness), a whitespace-only
name with an individual recipient makes letter generation fail instead of
producing a letter. -/
theorem last_name_empty_failure :
    (∀ name, tokens name ≠ [] → (last_name name).isSome)
    ∧ (∀ name, tokens name = [] → last_name name = none)
    ∧ tokens " " = []
    ∧ (" " : String) ≠ ""
    ∧ run_letter " " "Via Roma 1" "RSSMRA80A01H501U" "12345" "male" "31/12/2025"
        = .failure := by
  refine ⟨?_, ?_, by decide, by decide, by decide⟩
  · intro name h
    unfold last_name
    cases hrev : (tokens name).reverse with
    | nil => exact absurd (by simpa using congrArg List.reverse hrev) h
    | cons t rest =>
      cases rest with
      | nil => simp
      | cons p rest => by_cases hp : lowerStr p ∈ PARTICLES <;> simp [hp]
  · intro name h
    unfold last_name
    rw [h]
    rfl

/-- Witness for C10: a one-token and a two-token name both succeed. -/
theorem last_name_empty_failure_witness :
    (last_name "Mario Rossi").isSome = true ∧ (last_name "Madonna").isSome = true :=
  ⟨last_name_empty_failure.1 "Mario Rossi" (by decide),
    last_name_empty_failure.1 "Madonna" (by decide)⟩

/-! ## Effects and input mutation -/

/-- C7 counterexample: `build_doc` performs an input I/O action (it opens
the letterhead template file, line 386), and `aggregate_tables` changes
the caller's dataframe (line 277 writes the coerced value column back in
place), so neither stage is free of I/O and input mutation. -/
theorem purity_counterexample :
    build_doc_effects "Mario Rossi" "Via Roma 1" "RSSMRA80A01H501U" "12345" "31/12/2025" [] ≠ []
    ∧ (aggregate_tables_state [⟨"Administrative deduction", Cell.raw (some 80)⟩]).2
        ≠ [⟨"Administrative deduction", Cell.raw (some 80)⟩] := by
  constructor
  · intro h
    exact absurd (congrArg List.length h) (by decide)
  · intro h
    have := congrArg (fun l => (l.headD ⟨"", Cell.num none⟩).value) h
    simp [aggregate_tables_state, coerceRow, to_numeric] at this

/-- C7 amended: `build_doc` performs exactly one I/O action, reading the
letterhead template, and mutates nothing else; `aggregate_tables` mutates
its caller's dataframe only by coercing the value column in place: its
result is a pure function of the coerced values, and the mutation is
idempotent, so a second call on the mutated frame returns the same tables
and leaves the frame unchanged. -/
theorem purity_amended (df : List RawRow) :
    build_doc_effects "Mario Rossi" "Via Roma 1" "RSSMRA80A01H501U" "12345" "31/12/2025" []
      = [BuildEffect.fileRead "Novis_hl_papier_IT_motyl_12072023_prev.docx"]
    ∧ (aggregate_tables_state df).1
        = aggregate_tables (df.map (fun r => ⟨r.name, to_numeric r.value⟩))
    ∧ (aggregate_tables_state df).2 = df.map coerceRow
    ∧ aggregate_tables_state ((aggregate_tables_state df).2) = aggregate_tables_state df := by
  refine ⟨rfl, rfl, rfl, ?_⟩
  unfold aggregate_tables_state
  rw [List.map_map, List.map_map]
  refine Prod.ext ?_ ?_
  · exact congrArg aggregate_tables (List.map_congr_left (fun r _ => rfl))
  · exact List.map_congr_left (fun r _ => rfl)

/-! ## Re-aggregation -/

theorem normalize_reexpress (tbls : List (String × List (String × ℚ)))
    (h : ∀ p ∈ tbls, ∀ r ∈ p.2, fixedLabel p.1 r.1) :
    normalizeRows (reexpress tbls) = entriesOf tbls := by
  induction tbls with
  | nil => rfl
  | cons p tbls ih =>
    unfold reexpress entriesOf
    rw [List.flatMap_cons, List.flatMap_cons]
    unfold normalizeRows
    rw [List.filterMap_append]
    have hblock : (p.2.map (fun r => (⟨r.1, some r.2⟩ : LedgerRow))).filterMap
        (fun r => r.value.map
          (fun v => (⟨resolveTable r.name, resolveLabel r.name, signedValue r.name v⟩ : Entry)))
        = p.2.map (fun r => (⟨p.1, r.1, r.2⟩ : Entry)) := by
      rw [List.filterMap_map]
      have : ∀ r ∈ p.2,
          ((fun r : LedgerRow => r.value.map
            (fun v => (⟨resolveTable r.name, resolveLabel r.name, signedValue r.name v⟩ : Entry)))
            ∘ (fun r : String × ℚ => (⟨r.1, some r.2⟩ : LedgerRow))) r
          = some (⟨p.1, r.1, r.2⟩ : Entry) := by
        intro r hr
        obtain ⟨ht, hl, hs⟩ := h p (List.mem_cons_self p tbls) r hr
        simp only [Function.comp, Option.map_some]
        rw [ht, hl]
        unfold signedValue
        rw [hl, hs]
        simp
      rw [List.filterMap_eq_map_iff_forall_eq_some.mpr this]
    rw [hblock]
    congr 1
    exact ih (fun q hq r hr => h q (List.mem_cons_of_mem p hq) r hr)

theorem groupSum_of_nodup {es : List Entry} (hnd : (es.map entryKey).Nodup) :
    ∀ e ∈ es, groupSum es (entryKey e) = e.amount := by
  induction es with
  | nil => intro e he; simp at he
  | cons e' es ih =>
    intro e he
    have hnd' : (es.map entryKey).Nodup := (List.nodup_cons.mp hnd).2
    have hke' : entryKey e' ∉ es.map entryKey := (List.nodup_cons.mp hnd).1
    rcases List.mem_cons.mp he with rfl | hmem
    · rw [groupSum_cons, if_pos rfl, groupSum_eq_zero_of_not_mem hke']
      simp
    · have hne : entryKey e' ≠ entryKey e := by
        intro hk
        exact hke' (hk ▸ List.mem_map_of_mem entryKey hmem)
      rw [groupSum_cons, if_neg hne, ih hnd' e hmem]
      simp

theorem tableRows_amount_ne_zero {es : List Entry} {t : String} {r : String × ℚ}
    (h : r ∈ tableRows es t) : r.2 ≠ 0 :=
  (mem_tableRows.mp h).2

/-- Filtering the flattened blocks of a per-table family by table. -/
theorem filter_blocks (f : String → List (String × ℚ)) :
    ∀ (ts : List String), ts.Nodup → ∀ t : String,
      ((ts.flatMap (fun s => (f s).map (fun r => (⟨s, r.1, r.2⟩ : Entry)))).filter
        (fun e => e.table == t))
        = if t ∈ ts then (f t).map (fun r => (⟨t, r.1, r.2⟩ : Entry)) else [] := by
  intro ts
  induction ts with
  | nil => simp
  | cons s ts ih =>
    intro hnd t
    rw [List.flatMap_cons, List.filter_append, ih (List.nodup_cons.mp hnd).2 t]
    by_cases hts : t = s
    · subst hts
      have hnotmem : t ∉ ts := (List.nodup_cons.mp hnd).1
      rw [if_neg hnotmem, if_pos (List.mem_cons_self t ts)]
      rw [List.filter_map]
      have : ∀ r ∈ f t, ((fun e : Entry => e.table == t)
          ∘ (fun r : String × ℚ => (⟨t, r.1, r.2⟩ : Entry))) r = true := by
        intro r _
        simp [Function.comp]
      rw [List.filter_eq_self.mpr this]
      simp
    · have hb : ∀ r ∈ f s, ((fun e : Entry => e.table == t)
          ∘ (fun r : String × ℚ => (⟨s, r.1, r.2⟩ : Entry))) r = false := by
        intro r _
        simpa [Function.comp] using Ne.symm hts
      rw [List.filter_map,
        List.filter_eq_nil_iff.mpr (fun r hr => by rw [hb r hr]; simp),
        List.map_nil, List.nil_append]
      by_cases hmem : t ∈ ts
      · rw [if_pos hmem, if_pos (List.mem_cons_of_mem s hmem)]
      · rw [if_neg hmem, if_neg (by simpa [hts] using hmem)]

/-- The grouping keys of the flattened blocks are pairwise distinct. -/
theorem nodup_keys_blocks (f : String → List (String × ℚ))
    (hf : ∀ t, ((f t).map Prod.fst).Nodup) :
    ∀ (ts : List String), ts.Nodup →
      ((ts.flatMap (fun s => (f s).map (fun r => (⟨s, r.1, r.2⟩ : Entry)))).map
        entryKey).Nodup := by
  intro ts
  induction ts with
  | nil => simp
  | cons s ts ih =>
    intro hnd
    rw [List.flatMap_cons, List.map_append]
    apply List.nodup_append.mpr
    refine ⟨?_, ih (List.nodup_cons.mp hnd).2, ?_⟩
    · rw [List.map_map]
      have : (entryKey ∘ fun r : String × ℚ => (⟨s, r.1, r.2⟩ : Entry))
          = (fun x : String => (s, x)) ∘ Prod.fst := rfl
      rw [this, ← List.map_map]
      exact (hf s).map (fun a b hab => congrArg Prod.snd hab)
    · intro k hk1 hk2
      rcases List.mem_map.mp hk1 with ⟨e, hemem, hke⟩
      rcases List.mem_map.mp hemem with ⟨rr, _, rfl⟩
      subst hke
      rcases List.mem_map.mp hk2 with ⟨e', he'mem, hke'⟩
      rcases List.mem_flatMap.mp he'mem with ⟨s', hs', hes'⟩
      rcases List.mem_map.mp hes' with ⟨r', _, rfl⟩
      have hss : s = s' := (congrArg Prod.fst hke').symm
      exact (List.nodup_cons.mp hnd).1 (hss ▸ hs')

/-- C3 amended: re-running the aggregation on the re-expressed output of a
previous aggregation returns the same tables **provided** every output
row's label is a fixed point of the pipeline: routed back to its own
table, resolved to itself, and on the sign-preserving list.  (Without this
proviso idempotence fails: a sign-inverted label flips its amount's sign
and a label outside `T1` that is not a registry key is re-routed to
`T1` — see the counterexample.) -/
theorem aggregation_idempotent_on_fixed (rows : List LedgerRow)
    (hfix : ∀ t tbl, (t, tbl) ∈ aggregate_tables rows → ∀ r ∈ tbl, fixedLabel t r.1) :
    aggregate_tables (reexpress (aggregate_tables rows)) = aggregate_tables rows := by
  have hfix' : ∀ p ∈ aggregate_tables rows, ∀ r ∈ p.2, fixedLabel p.1 r.1 := by
    intro p hp r hr
    exact hfix p.1 p.2 hp r hr
  have hA : normalizeRows (reexpress (aggregate_tables rows))
      = entriesOf (aggregate_tables rows) := normalize_reexpress _ hfix'
  have hflat : entriesOf (aggregate_tables rows)
      = (tableIds.filter (fun t => !(tableRows (normalizeRows rows) t).isEmpty)).flatMap
          (fun s => (tableRows (normalizeRows rows) s).map
            (fun r => (⟨s, r.1, r.2⟩ : Entry))) := by
    unfold entriesOf aggregate_tables aggregateEntries
    rw [List.flatMap_map]
  have hnd₀ : (tableIds.filter
      (fun t => !(tableRows (normalizeRows rows) t).isEmpty)).Nodup :=
    tableIds_nodup.filter _
  have hkeys : (((tableIds.filter
      (fun t => !(tableRows (normalizeRows rows) t).isEmpty)).flatMap
        (fun s => (tableRows (normalizeRows rows) s).map
          (fun r => (⟨s, r.1, r.2⟩ : Entry)))).map entryKey).Nodup :=
    nodup_keys_blocks _ (tableRows_fst_nodup _) _ hnd₀
  set es : List Entry := normalizeRows rows with hes
  set ts₀ : List String := tableIds.filter (fun t => !(tableRows es t).isEmpty) with hts₀
  set es' : List Entry :=
    ts₀.flatMap (fun s => (tableRows es s).map (fun r => (⟨s, r.1, r.2⟩ : Entry))) with hes'
  have hraw : ∀ t, rawRows es' t = if t ∈ ts₀ then tableRows es t else [] := by
    intro t
    have h1 : rawRows es' t
        = ((es'.map entryKey).filter (fun k => k.1 == t)).map
            (fun k => (k.2, groupSum es' k)) := by
      unfold rawRows groupKeys
      rw [List.Nodup.dedup hkeys]
    rw [h1, List.filter_map, List.map_map]
    have h2 : List.filter ((fun k : String × String => k.1 == t) ∘ entryKey) es'
        = List.filter (fun e => e.table == t) es' :=
      List.filter_congr (fun e _ => rfl)
    rw [h2, filter_blocks (tableRows es) ts₀ hnd₀ t]
    by_cases hmem : t ∈ ts₀
    · rw [if_pos hmem, if_pos hmem, List.map_map]
      have h3 : ∀ r ∈ tableRows es t,
          (((fun k : String × String => (k.2, groupSum es' k)) ∘ entryKey)
            ∘ (fun r : String × ℚ => (⟨t, r.1, r.2⟩ : Entry))) r = id r := by
        intro r hr
        have he : (⟨t, r.1, r.2⟩ : Entry) ∈ es' := by
          rw [hes']
          apply List.mem_flatMap.mpr
          exact ⟨t, hmem, List.mem_map_of_mem _ hr⟩
        have hgs := groupSum_of_nodup hkeys _ he
        simp only [Function.comp, id]
        rw [hgs]
        rfl
      rw [List.map_congr_left h3, List.map_id]
    · rw [if_neg hmem, if_neg hmem]
      rfl
  have htr : ∀ t, tableRows es' t = if t ∈ ts₀ then tableRows es t else [] := by
    intro t
    have h0 : tableRows es' t
        = ((rawRows es' t).filter (fun r => r.2 != 0)).insertionSort rowLE := rfl
    by_cases hmem : t ∈ ts₀
    · rw [if_pos hmem, h0, hraw t, if_pos hmem]
      rw [List.filter_eq_self.mpr
        (fun r hr => by simpa using tableRows_amount_ne_zero hr)]
      exact List.Sorted.insertionSort_eq (tableRows_sorted es t)
    · rw [if_neg hmem, h0, hraw t, if_neg hmem]
      rfl
  have hfilter : tableIds.filter (fun t => !(tableRows es' t).isEmpty) = ts₀ := by
    rw [hts₀]
    apply List.filter_congr
    intro t ht
    rw [htr t]
    by_cases hmem : t ∈ ts₀
    · rw [if_pos hmem]
    · rw [if_neg hmem]
      rw [hts₀] at hmem
      have : ¬((!(tableRows es t).isEmpty) = true) := by
        intro hq
        exact hmem (List.mem_filter.mpr ⟨ht, hq⟩)
      simp [Bool.not_eq_true] at this ⊢
      simp [this]
  calc aggregate_tables (reexpress (aggregate_tables rows))
      = aggregateEntries (entriesOf (aggregate_tables rows)) := congrArg aggregateEntries hA
    _ = aggregateEntries es' := by rw [hflat]
    _ = ts₀.map (fun t => (t, tableRows es t)) := by
        unfold aggregateEntries
        rw [hfilter]
        apply List.map_congr_left
        intro t htm
        rw [htr t, if_pos htm]
    _ = aggregate_tables rows := rfl

/-- C3 counterexample: re-aggregating the re-expressed output is *not* the
identity in general.  One `Administrative deduction` row of 80,00
aggregates to the `Costi di caricamento` row -80,00; re-expressed as an
entry, that label is not a registry key and not sign-preserving, so the
second run flips the amount to +80,00. -/
theorem aggregation_idempotence_counterexample :
    aggregate_tables [⟨"Administrative deduction", some 80⟩]
      = [("T1", [("Costi di caricamento", -80)])]
    ∧ aggregate_tables (reexpress (aggregate_tables [⟨"Administrative deduction", some 80⟩]))
        = [("T1", [("Costi di caricamento", 80)])]
    ∧ aggregate_tables (reexpress (aggregate_tables [⟨"Administrative deduction", some 80⟩]))
        ≠ aggregate_tables [⟨"Administrative deduction", some 80⟩] := by
  have h1 : aggregate_tables [⟨"Administrative deduction", some 80⟩]
      = [("T1", [("Costi di caricamento", -80)])] := by
    have h : normalizeRows [⟨"Administrative deduction", some 80⟩]
        = [⟨"T1", "Costi di caricamento", -(80:ℚ)⟩] := rfl
    rw [aggregate_tables, h]
    norm_num +decide [aggregateEntries, tableRows, rawRows, groupKeys, groupSum,
      entryKey, tableIds, List.dedup, List.pwFilter, List.insertionSort, List.orderedInsert]
  have h2 : aggregate_tables (reexpress (aggregate_tables
      [⟨"Administrative deduction", some 80⟩]))
      = [("T1", [("Costi di caricamento", 80)])] := by
    rw [h1]
    have hre : reexpress [("T1", [("Costi di caricamento", -(80:ℚ))])]
        = [⟨"Costi di caricamento", some (-80)⟩] := rfl
    rw [hre]
    have h : normalizeRows [⟨"Costi di caricamento", some (-80)⟩]
        = [⟨"T1", "Costi di caricamento", -(-80:ℚ)⟩] := rfl
    rw [aggregate_tables, h]
    norm_num +decide [aggregateEntries, tableRows, rawRows, groupKeys, groupSum,
      entryKey, tableIds, List.dedup, List.pwFilter, List.insertionSort, List.orderedInsert]
  refine ⟨h1, h2, ?_⟩
  rw [h2, h1]
  intro h
  have := congrArg (fun l => ((l.headD ("", [])).2.headD ("", 0)).2) h
  norm_num at this

/-- Witness for C3 amended: a single `Paid Premium` row produces one `T1`
row under the preserve-listed label `Pagamenti dei Premi identificati`,
which is a fixed point, so re-aggregation reproduces the output. -/
theorem aggregation_idempotent_on_fixed_witness :
    aggregate_tables (reexpress (aggregate_tables [⟨"Paid Premium", some 100⟩]))
      = aggregate_tables [⟨"Paid Premium", some 100⟩] := by
  apply aggregation_idempotent_on_fixed
  have hagg : aggregate_tables [⟨"Paid Premium", some 100⟩]
      = [("T1", [("Pagamenti dei Premi identificati", (100:ℚ))])] := by
    have h : normalizeRows [⟨"Paid Premium", some 100⟩]
        = [⟨"T1", "Pagamenti dei Premi identificati", (100:ℚ)⟩] := rfl
    rw [aggregate_tables, h]
    norm_num +decide [aggregateEntries, tableRows, rawRows, groupKeys, groupSum,
      entryKey, tableIds, List.dedup, List.pwFilter, List.insertionSort, List.orderedInsert]
  intro t tbl hmem r hr
  rw [hagg] at hmem
  simp only [List.mem_singleton, Prod.mk.injEq] at hmem
  obtain ⟨rfl, rfl⟩ := hmem
  simp only [List.mem_singleton] at hr
  rw [hr]
  decide

end Valorizatione
